import Mathlib

/-!
Verification development for the `rnaseq_spectral_pre_processing` pipeline
(`rnaseq_spectral_pre_processing.py`).

The pandas program is shallowly embedded as follows:

* a cell value is `Val` (`na` models `NaN`, numbers are exact rationals,
  strings are `String`);
* a dataframe row is an association list `RowL` from column name to value;
  looking up an absent column yields `Val.na` (pandas: a column outside the
  schema reads as missing);
* a row-indexed dataframe is `Frame ι`, a list of `(index value, row)` pairs;
* Python string operations (`split`, `join`, `replace`, `in`) are implemented
  on `List Char` with their exact Python semantics (non-overlapping
  left-to-right scan for `replace`, empty tokens kept by `split`);
* `pd.to_numeric ∘ astype(int) ∘ astype(str)` is a decimal parser, truncation
  toward zero, and a decimal renderer;
* `DataFrame.join` is pandas' default left join on the index (all left rows
  kept, one output row per matching right row, right columns missing when the
  right side has no match);
* `groupby(...).mean()/.median()` groups rows by the listed key columns
  (groups whose key contains a missing value are dropped, as pandas does) and
  aggregates each column over the numeric values present in the group.
  Output group order is modelled as first-appearance order; no property below
  depends on the ordering of groups.
* fallible steps (`pd.to_numeric` conversion errors, the `IndexError` of
  `split('_')[1]` on a name without a second token, and the column-length
  mismatch in `fix_plot_column`) return `Option`, `none` standing for the
  raised exception.
-/

/-- A pandas cell value: missing (`NaN`), numeric, or string. -/
inductive Val where
  | na : Val
  | num : ℚ → Val
  | str : String → Val
deriving DecidableEq, Repr

/-- A dataframe row: association list from column name to value. -/
abbrev RowL := List (String × Val)

/-- A row-indexed dataframe with index type `ι`. -/
abbrev Frame (ι : Type) := List (ι × RowL)

/-- Reading column `c` of a row; an absent column reads as missing. -/
def getCol (r : RowL) (c : String) : Val :=
  match r.find? (fun p => p.1 = c) with
  | some p => p.2
  | none => Val.na

/-- Column assignment `df[c] = v` on one row: replace the binding if the
column exists, otherwise append it. -/
def setCol (c : String) (v : Val) (r : RowL) : RowL :=
  if (r.map Prod.fst).contains c then
    r.map (fun p => if p.1 = c then (c, v) else p)
  else
    r ++ [(c, v)]

/-- Dropping a column (`set_index` removes the chosen column from the data). -/
def eraseCol (c : String) (r : RowL) : RowL :=
  r.filter (fun p => p.1 ≠ c)

/-! ### Python string primitives on `List Char` -/

/-- Python `s.split(sep)` for a one-character separator: empty tokens are
kept, and the empty string splits to one empty token. -/
def splitOnChar (sep : Char) : List Char → List (List Char)
  | [] => [[]]
  | c :: cs =>
    match splitOnChar sep cs with
    | [] => [[]]
    | t :: ts => if c = sep then [] :: t :: ts else (c :: t) :: ts

/-- Python `sep.join(tokens)` for a one-character separator. -/
def joinSep (sep : Char) : List (List Char) → List Char
  | [] => []
  | [t] => t
  | t :: ts => t ++ sep :: joinSep sep ts

/-- Python `pat in s` (substring test). -/
def containsSub (pat : List Char) : List Char → Bool
  | [] => pat.isEmpty
  | l@(_ :: cs) => pat.isPrefixOf l || containsSub pat cs

/-- Worker for `pyReplace`, structurally recursive on a fuel argument so the
kernel can evaluate it; `fuel ≥ length of the input` never runs out because
each step consumes at least one character. -/
def pyReplaceAux (pat rep : List Char) : ℕ → List Char → List Char
  | _, [] => []
  | 0, l => l
  | fuel + 1, c :: cs =>
    if pat.isPrefixOf (c :: cs) ∧ pat ≠ [] then
      rep ++ pyReplaceAux pat rep fuel ((c :: cs).drop pat.length)
    else
      c :: pyReplaceAux pat rep fuel cs

/-- Python `s.replace(pat, rep)`: non-overlapping left-to-right replacement
of every occurrence (its recurrence is `pyReplace_cons` below). -/
def pyReplace (pat rep l : List Char) : List Char :=
  pyReplaceAux pat rep l.length l

/-- `s.replace(pat, rep)` lifted to `String`. -/
def strReplace (pat rep s : String) : String :=
  String.mk (pyReplace pat.toList rep.toList s.toList)

/-- Python substring test lifted to `String`. -/
def strContains (pat s : String) : Bool :=
  containsSub pat.toList s.toList

/-! ### Decimal rendering (`astype(str)` on integers) -/

/-- The character of a single decimal digit. -/
def digChar (n : ℕ) : Char := Char.ofNat (48 + n)

/-- Worker for `natDigitsRev`, structurally recursive on a fuel argument so
the kernel can evaluate it; `fuel ≥ n` suffices since `n / 10 < n`. -/
def natDigitsRevAux : ℕ → ℕ → List Char
  | 0, n => [digChar n]
  | fuel + 1, n =>
    if n < 10 then [digChar n]
    else digChar (n % 10) :: natDigitsRevAux fuel (n / 10)

/-- Decimal digits of a natural number, least significant first (its
recurrence is `natDigitsRev_eq` below). -/
def natDigitsRev (n : ℕ) : List Char := natDigitsRevAux n n

/-- Python `str` of a nonnegative integer: most significant digit first. -/
def natRepr (n : ℕ) : List Char := (natDigitsRev n).reverse

/-- Python `str` of an integer. -/
def intRepr (i : ℤ) : List Char :=
  if i < 0 then '-' :: natRepr (-i).toNat else natRepr i.toNat

/-! ### Decimal parsing (`pd.to_numeric` on the values this pipeline meets) -/

/-- Numeric value of a decimal digit character, if it is one. -/
def digVal (c : Char) : Option ℕ :=
  if 48 ≤ c.toNat ∧ c.toNat ≤ 57 then some (c.toNat - 48) else none

/-- Whether every character of the list is a decimal digit. -/
def allDigits (l : List Char) : Bool := l.all (fun c => (digVal c).isSome)

/-- The value of a most-significant-first digit string. -/
def natValMSB (l : List Char) : ℕ :=
  l.foldl (fun a c => a * 10 + ((digVal c).getD 0)) 0

/-- Parse an unsigned decimal literal, integer part and optional fractional
part (`101`, `101.0`, `101.`, `.5`). -/
def parseUnsigned (l : List Char) : Option ℚ :=
  match splitOnChar '.' l with
  | [a] =>
    if a ≠ [] ∧ allDigits a then some ((natValMSB a : ℚ)) else none
  | [a, b] =>
    if (a ≠ [] ∨ b ≠ []) ∧ allDigits a ∧ allDigits b then
      some ((natValMSB a : ℚ) + (natValMSB b : ℚ) / 10 ^ b.length)
    else none
  | _ => none

/-- Parse a decimal literal with optional leading minus sign. -/
def parseNumChars (l : List Char) : Option ℚ :=
  match l with
  | '-' :: rest => (parseUnsigned rest).map (fun q => -q)
  | _ => parseUnsigned l

/-- `pd.to_numeric` on a cell: numbers pass through, strings are parsed,
anything else is a conversion error. -/
def toNumericVal : Val → Option ℚ
  | Val.num q => some q
  | Val.str s => parseNumChars s.toList
  | Val.na => none

/-- `astype(int)` on a float truncates toward zero. -/
def truncRat (q : ℚ) : ℤ :=
  if q < 0 then -((-q).floor) else q.floor

/-- The Identifier Normalizer of the fieldbook loader, line 133:
`pd.to_numeric(v).astype(int).astype(str)` on one cell. -/
def normalizePlot (v : Val) : Option String :=
  (toNumericVal v).map (fun q => String.mk (intRepr (truncRat q)))

/-! ### Expression Reshaper: the sample-identifier split (lines 83-84) -/

/-- Line 84: `'_'.join(entry.split('_')[:-1])` — everything before the last
underscore-delimited token. -/
def entryOf (l : List Char) : List Char :=
  joinSep '_' ((splitOnChar '_' l).dropLast)

/-- Line 83: `'_'.join(entry.split('_')[-1:])` — the last underscore-delimited
token. -/
def treatmentOf (l : List Char) : List Char :=
  joinSep '_' ((splitOnChar '_' l).drop ((splitOnChar '_' l).length - 1))

/-- `entryOf` on `String`s. -/
def entryOfS (s : String) : String := String.mk (entryOf s.toList)

/-- `treatmentOf` on `String`s. -/
def treatmentOfS (s : String) : String := String.mk (treatmentOf s.toList)

/-! ### Spectral Reshaper: plot extraction and the column fix (lines 141-156) -/

/-- Apply a fallible transformation to every element; the first failure
aborts (a Python comprehension propagates the first exception,
`pd.to_numeric` raises on the first unparseable cell). -/
def mapOpt (f : α → Option β) : List α → Option (List β)
  | [] => some []
  | x :: xs => do
    let y ← f x
    let ys ← mapOpt f xs
    some (y :: ys)

/-- Line 151, the per-column extraction
`column.split('_')[1].replace('00000.asd', '').replace('p', '')`:
`split('_')[1]` raises `IndexError` (here `none`) when the name has no
second underscore-delimited token. -/
def extractPlotName? (name : String) : Option String :=
  ((splitOnChar '_' name.toList)[1]?).map (fun tok =>
    String.mk (pyReplace ['p'] [] (pyReplace "00000.asd".toList [] tok)))

/-- The value line 151 extracts from a column name that does have a second
underscore-delimited token; on a name without one it transforms the empty
token instead — `extractPlotName?` is the fallible form `fix_plot_column`
actually runs. -/
def extractPlotName (name : String) : String :=
  String.mk (pyReplace ['p'] []
    (pyReplace "00000.asd".toList [] ((splitOnChar '_' name.toList).getD 1 [])))

/-- `fix_plot_column` (lines 151-154) acting on the list of
`(column name, column values)` pairs of the raw spectral CSV: run the
comprehension `[extract(c) for c in columns if 'Cotton' in c]` — the first
`Cotton`-marked name without a second underscore token raises `IndexError` —
insert `'Lambda'` at the front, and assign the list positionally as the new
column names, where a length mismatch raises.  Either raise is `none`. -/
def fix_plot_column (cols : List (String × List Val)) : Option (List (String × List Val)) := do
  let extracted ← mapOpt extractPlotName?
    ((cols.map Prod.fst).filter (fun n => strContains "Cotton" n))
  let plot_number_columns := "Lambda" :: extracted
  if plot_number_columns.length = cols.length then
    some (plot_number_columns.zip (cols.map Prod.snd))
  else
    none

/-- Rendering a cell value as a column label (`astype(str)` applied to the
transposed header values). -/
def valToColName : Val → String
  | Val.str s => s
  | Val.num q =>
      if q.den = 1 then String.mk (intRepr q.num)
      else String.mk (intRepr q.num ++ '/' :: natRepr q.den)
  | Val.na => "nan"

/-- `df.set_index(idName).T`: the values of column `idName` become the new
column names, every other column becomes a row indexed by its former name
(lines 79 and 112-114; the subsequent `.columns.astype(str)` is folded into
the rendering of the header values). -/
def transposeOn (idName : String) (cols : List (String × List Val)) : Frame String :=
  let headers : List String :=
    ((cols.find? (fun p => p.1 = idName)).map Prod.snd).getD [] |>.map valToColName
  (cols.filter (fun p => p.1 ≠ idName)).map (fun p => (p.1, headers.zip p.2))

/-- Line 78: `rna_df['Gene'] = rna_df['Gene'].str.replace('Gohir.', 'Gh_')`
(the `.str` accessor turns non-string cells into missing). -/
def renameGenes (cols : List (String × List Val)) : List (String × List Val) :=
  cols.map (fun p =>
    if p.1 = "Gene" then
      ("Gene", p.2.map (fun v =>
        match v with
        | Val.str s => Val.str (strReplace "Gohir." "Gh_" s)
        | _ => Val.na))
    else p)

/-! ### Table Joiner (lines 160-187) -/

/-- `df1.join(df2)`: pandas' default left join on the index.  Every left row
is kept; a left row is repeated once per matching right row, its columns
first; with no match the right columns are simply absent (missing). -/
def joinDF {ι : Type} [DecidableEq ι] (df1 df2 : Frame ι) : Frame ι :=
  df1.flatMap (fun p =>
    match df2.filter (fun q => q.1 = p.1) with
    | [] => [(p.1, p.2)]
    | ms => ms.map (fun q => (p.1, p.2 ++ q.2)))

/-- `.reset_index()`: the index becomes the leading column `idxName`. -/
def resetIndex (idxName : String) (df : Frame Val) : List RowL :=
  df.map (fun p => (idxName, p.1) :: p.2)

/-- The key of a row under a group-by column list. -/
def keyOf (gcols : List String) (r : RowL) : List Val :=
  gcols.map (getCol r)

/-- The group keys, in first-appearance order; pandas drops any group whose
key contains a missing value. -/
def groupKeys (gcols : List String) (rows : List RowL) : List (List Val) :=
  ((rows.map (keyOf gcols)).filter (fun k => k.all (fun v => v ≠ Val.na))).dedup

/-- The rows of one group. -/
def groupRows (gcols : List String) (rows : List RowL) (k : List Val) : List RowL :=
  rows.filter (fun r => keyOf gcols r = k)

/-- The numeric values a column takes over a list of rows (aggregation skips
missing and non-numeric cells, as pandas `mean`/`median` do). -/
def numsAt (c : String) (rows : List RowL) : List ℚ :=
  rows.filterMap (fun r =>
    match getCol r c with
    | Val.num q => some q
    | _ => none)

/-- Arithmetic mean. -/
def meanQ (l : List ℚ) : ℚ := l.sum / l.length

/-- Statistical median: middle of the sorted values, average of the two
middle values for an even count. -/
def medianQ (l : List ℚ) : ℚ :=
  let s := l.mergeSort (fun a b => a ≤ b)
  if l.length % 2 = 1 then s.getD (l.length / 2) 0
  else (s.getD (l.length / 2 - 1) 0 + s.getD (l.length / 2) 0) / 2

/-- The column names appearing in a list of rows, in order of first
appearance. -/
def colsOf (rows : List RowL) : List String :=
  (rows.flatMap (fun r => r.map Prod.fst)).dedup

/-- One aggregated row: each column of the group aggregated over its numeric
values (a column with no numeric value in the group aggregates to missing —
pandas drops non-numeric columns from the aggregate). -/
def aggRow (agg : List ℚ → ℚ) (grp : List RowL) : RowL :=
  (colsOf grp).map (fun c =>
    (c, match numsAt c grp with
        | [] => Val.na
        | qs => Val.num (agg qs)))

/-- `groupby(by=gcols).agg()`: one `(key, aggregated row)` pair per group. -/
def groupbyAgg (agg : List ℚ → ℚ) (gcols : List String) (rows : List RowL) :
    List (List Val × RowL) :=
  (groupKeys gcols rows).map (fun k => (k, aggRow agg (groupRows gcols rows k)))

/-- `join_dataframes` (lines 160-187).  `idxName` is the (pandas-implicit)
name of the shared index, restored by `reset_index()`.  `convert_dtypes`
only normalizes dtypes and does not change any cell value, so it is carried
but has no effect on the embedded values.  Without a group-by list the rows
are returned with trivial keys; with one, rows are grouped and aggregated by
`mean` when `stat == 'mean'` and by `median` for every other `stat`. -/
def join_dataframes (idxName : String) (df1 df2 : Frame Val)
    (convert_dtypes : Bool) (groupby_list : List String) (stat : Option String) :
    List (List Val × RowL) :=
  let joined_df := resetIndex idxName (joinDF df1 df2)
  if groupby_list = [] then
    joined_df.map (fun r => (([] : List Val), r))
  else if stat = some "mean" then
    groupbyAgg meanQ groupby_list joined_df
  else
    groupbyAgg medianQ groupby_list joined_df

/-! ### Loaders and the merge pipeline (lines 65-137 and 244-262) -/

/-- `get_fieldbook_data` (lines 121-137): drop rows with a missing `plot`,
normalize `plot` (line 133; a conversion error aborts), then index by the
requested column. -/
def get_fieldbook_data (fbRaw : List RowL) (index : String) : Option (Frame Val) := do
  let fb1 := fbRaw.filter (fun r => getCol r "plot" ≠ Val.na)
  let fb2 ← mapOpt (fun r =>
    (normalizePlot (getCol r "plot")).map (fun s => setCol "plot" (Val.str s) r)) fb1
  some (fb2.map (fun r => (getCol r index, eraseCol index r)))

/-- `get_rnaseq_data` (lines 65-90) on the embedded tables.  `isTPM` is the
`'TPM' in csv_path` branch condition.  The expression CSV is given as its
column list (a `Gene` column plus one column per sample); lines 78-79 rename
the gene prefix and transpose.  In the TPM branch (lines 82-85) each sample
identifier is split into entry and treatment, and the fieldbook (indexed by
`entry`) is left-joined with the expression rows over the composite
(`entry`, `treatment`) key, then re-indexed by `plot`.  In the other branch
(line 88) the fieldbook is left-joined on `entry` directly. -/
def get_rnaseq_data (isTPM : Bool) (rnaCols : List (String × List Val))
    (fbRaw : List RowL) : Option (Frame Val) := do
  let fb ← get_fieldbook_data fbRaw "entry"
  let rnaT : Frame String := transposeOn "Gene" (renameGenes rnaCols)
  if isTPM then
    -- lines 82-85
    let rnaK : Frame (Val × Val) := rnaT.map (fun p =>
      ((Val.str (entryOfS p.1), Val.str (treatmentOfS p.1)), p.2))
    let fbK : Frame (Val × Val) := fb.map (fun p =>
      let r := ("entry", p.1) :: p.2
      ((getCol r "entry", getCol r "treatment"),
        eraseCol "treatment" (eraseCol "entry" r)))
    let joined := joinDF fbK rnaK
    some (joined.map (fun p =>
      let r := ("entry", p.1.1) :: ("treatment", p.1.2) :: p.2
      (getCol r "plot", eraseCol "plot" r)))
  else
    -- line 88
    let rnaV : Frame Val := rnaT.map (fun p => (Val.str p.1, p.2))
    let joined := (join_dataframes "entry" fb rnaV true [] none).map Prod.snd
    some (joined.map (fun r => (getCol r "plot", eraseCol "plot" r)))

/-- `get_spectral_data` (lines 94-117): fix the scan column names, transpose
on `Lambda` so each scan becomes a plot-indexed row, and left-join the
fieldbook (indexed by `plot`) with it.  Returns
(spectra only, spectra+fieldbook, fieldbook). -/
def get_spectral_data (spectraCols : List (String × List Val))
    (fbRaw : List RowL) :
    Option (Frame Val × List (List Val × RowL) × Frame Val) := do
  let fb ← get_fieldbook_data fbRaw "plot"
  let fixed ← fix_plot_column spectraCols
  let spectra_df : Frame Val :=
    (transposeOn "Lambda" fixed).map (fun p => (Val.str p.1, p.2))
  let spectra_fb := join_dataframes "plot" fb spectra_df true [] none
  some (spectra_df, spectra_fb, fb)

/-- The treatment filter of line 254:
`rna_fb[rna_fb['treatment'].isin(args.treatment)]`. -/
def filterTreatment (treatments : List String) (df : Frame Val) : Frame Val :=
  df.filter (fun p => (treatments.map Val.str).contains (getCol p.2 "treatment"))

/-- The merge pipeline of `main` (lines 249-262): expression+fieldbook view,
treatment filter, spectral view, and the final
`join_dataframes(df1=rna_fb, df2=spectra_df, groupby_list=['entry','treatment'], stat='mean')`. -/
def rnaseq_spectra (isTPM : Bool) (rnaCols spectraCols : List (String × List Val))
    (fbRaw : List RowL) (treatments : List String) :
    Option (List (List Val × RowL)) := do
  let rna_fb ← get_rnaseq_data isTPM rnaCols fbRaw
  let rna_fb := filterTreatment treatments rna_fb
  let (spectra_df, _, _) ← get_spectral_data spectraCols fbRaw
  some (join_dataframes "plot" rna_fb spectra_df false
    ["entry", "treatment"] (some "mean"))

/-! ### Transcript Partitioner (lines 191-226) -/

/-- `get_transcript_list` (lines 191-204): the columns whose name contains
the marker substring. -/
def get_transcript_list (columns : List String) (substring : String) : List String :=
  columns.filter (fun c => strContains substring c)

/-- Lines 224-225: `[str(i) for i in range(350, 2501)]` with the transcript
inserted at position 0. -/
def column_list (transcript : String) : List String :=
  transcript :: (List.range' 350 (2501 - 350)).map (fun i => String.mk (natRepr i))

/-- `dropna(subset=...)`: keep the rows whose listed columns are all
non-missing. -/
def dropna (subset : List String) (rows : List RowL) : List RowL :=
  rows.filter (fun r => subset.all (fun c => getCol r c ≠ Val.na))

/-- Column selection `row[column_list]`. -/
def selectCols (cols : List String) (r : RowL) : RowL :=
  cols.map (fun c => (c, getCol r c))

/-- The pure core of `generate_save_transcript_csv` (lines 220-226): filter
out rows missing the transcript value, then rows missing either boundary
wavelength, then slice to `[transcript, '350', ..., '2500']`. -/
def generate_transcript_rows (table : List RowL) (transcript : String) : List RowL :=
  let temp_data := dropna [transcript] table
  let temp_data := dropna ["350", "2500"] temp_data
  temp_data.map (selectCols (column_list transcript))

/-! ## Helper lemmas: Python `split` / `join` / `replace` -/

theorem splitOnChar_ne_nil (sep : Char) (l : List Char) : splitOnChar sep l ≠ [] := by
  cases l with
  | nil => simp [splitOnChar]
  | cons c cs =>
    simp only [splitOnChar]
    cases h : splitOnChar sep cs with
    | nil => simp
    | cons t ts =>
      by_cases hc : c = sep <;> simp [hc]

theorem joinSep_splitOnChar (sep : Char) (l : List Char) :
    joinSep sep (splitOnChar sep l) = l := by
  induction l with
  | nil => simp [splitOnChar, joinSep]
  | cons c cs ih =>
    simp only [splitOnChar]
    cases h : splitOnChar sep cs with
    | nil => exact absurd h (splitOnChar_ne_nil sep cs)
    | cons t ts =>
      rw [h] at ih
      by_cases hc : c = sep
      · subst hc
        cases ts with
        | nil => simpa [joinSep] using ih
        | cons u us => simpa [joinSep] using ih
      · simp only [if_neg hc]
        cases ts with
        | nil => simpa [joinSep] using congrArg (c :: ·) ih
        | cons u us => simpa [joinSep] using congrArg (c :: ·) ih

theorem not_mem_of_mem_splitOnChar (sep : Char) (l t : List Char)
    (ht : t ∈ splitOnChar sep l) : sep ∉ t := by
  induction l generalizing t with
  | nil =>
    simp [splitOnChar] at ht
    subst ht; simp
  | cons c cs ih =>
    simp only [splitOnChar] at ht
    cases h : splitOnChar sep cs with
    | nil => exact absurd h (splitOnChar_ne_nil sep cs)
    | cons u us =>
      rw [h] at ht
      by_cases hc : c = sep
      · simp only [if_pos hc] at ht
        rcases List.mem_cons.1 ht with rfl | hmem
        · simp
        · exact ih t (h ▸ hmem)
      · simp only [if_neg hc] at ht
        rcases List.mem_cons.1 ht with rfl | hmem
        · intro hx
          rcases List.mem_cons.1 hx with rfl | hx'
          · exact hc rfl
          · exact ih u (h ▸ List.mem_cons_self u us) hx'
        · exact ih t (h ▸ List.mem_cons.2 (Or.inr hmem))

theorem two_le_length_splitOnChar (sep : Char) (l : List Char)
    (h : sep ∈ l) : 2 ≤ (splitOnChar sep l).length := by
  induction l with
  | nil => simp at h
  | cons c cs ih =>
    simp only [splitOnChar]
    cases hs : splitOnChar sep cs with
    | nil => exact absurd hs (splitOnChar_ne_nil sep cs)
    | cons t ts =>
      by_cases hc : c = sep
      · simp only [if_pos hc, List.length_cons]
        omega
      · have hmem : sep ∈ cs := by
          rcases List.mem_cons.1 h with rfl | h' 
          · exact absurd rfl hc
          · exact h'
        have := ih hmem
        rw [hs] at this
        simp only [if_neg hc, List.length_cons] at this ⊢
        omega

theorem joinSep_append_singleton (sep : Char) (ts : List (List Char)) (u : List Char)
    (h : ts ≠ []) : joinSep sep (ts ++ [u]) = joinSep sep ts ++ sep :: u := by
  induction ts with
  | nil => exact absurd rfl h
  | cons t ts ih =>
    cases ts with
    | nil => simp [joinSep]
    | cons v vs =>
      have h2 := ih (by simp)
      calc joinSep sep ((t :: v :: vs) ++ [u])
          = t ++ sep :: joinSep sep ((v :: vs) ++ [u]) := by
            simp only [List.cons_append]
            rfl
        _ = t ++ sep :: (joinSep sep (v :: vs) ++ sep :: u) := by rw [h2]
        _ = joinSep sep (t :: v :: vs) ++ sep :: u := by
            simp [joinSep, List.append_assoc]

theorem drop_length_sub_one {α : Type} (l : List α) (h : l ≠ []) :
    l.drop (l.length - 1) = [l.getLast h] := by
  induction l with
  | nil => exact absurd rfl h
  | cons a l ih =>
    cases l with
    | nil => simp
    | cons b l' =>
      have := ih (by simp)
      simpa [List.getLast] using this

/-! ## Helper lemmas: fuel irrelevance and recurrences -/

theorem pyReplaceAux_irrel (pat rep : List Char) (f₁ f₂ : ℕ) (l : List Char)
    (h₁ : l.length ≤ f₁) (h₂ : l.length ≤ f₂) :
    pyReplaceAux pat rep f₁ l = pyReplaceAux pat rep f₂ l := by
  induction f₁ generalizing f₂ l with
  | zero =>
    have hl : l = [] := List.eq_nil_of_length_eq_zero (Nat.le_zero.1 h₁)
    subst hl
    cases f₂ <;> rfl
  | succ f ih =>
    cases l with
    | nil => cases f₂ <;> rfl
    | cons c cs =>
      cases f₂ with
      | zero => simp at h₂
      | succ g =>
        simp only [pyReplaceAux]
        by_cases hp : pat.isPrefixOf (c :: cs) ∧ pat ≠ []
        · rw [if_pos hp, if_pos hp]
          have hpat : 1 ≤ pat.length := List.length_pos.2 hp.2
          congr 1
          apply ih
          · simp only [List.length_drop, List.length_cons] at h₁ ⊢
            omega
          · simp only [List.length_drop, List.length_cons] at h₂ ⊢
            omega
        · rw [if_neg hp, if_neg hp]
          simp only [List.length_cons] at h₁ h₂
          exact congrArg (c :: ·) (ih g cs (by omega) (by omega))

theorem pyReplace_nil (pat rep : List Char) : pyReplace pat rep [] = [] := rfl

theorem pyReplace_cons (pat rep : List Char) (c : Char) (cs : List Char) :
    pyReplace pat rep (c :: cs) =
      if pat.isPrefixOf (c :: cs) ∧ pat ≠ [] then
        rep ++ pyReplace pat rep ((c :: cs).drop pat.length)
      else c :: pyReplace pat rep cs := by
  unfold pyReplace
  simp only [List.length_cons, pyReplaceAux]
  by_cases hp : pat.isPrefixOf (c :: cs) ∧ pat ≠ []
  · rw [if_pos hp, if_pos hp]
    have hpat : 1 ≤ pat.length := List.length_pos.2 hp.2
    congr 1
    apply pyReplaceAux_irrel
    · simp only [List.length_drop, List.length_cons]
      omega
    · exact le_rfl
  · rw [if_neg hp, if_neg hp]

theorem natDigitsRevAux_irrel (f₁ f₂ n : ℕ)
    (h₁ : n ≤ f₁ ∨ n < 10) (h₂ : n ≤ f₂ ∨ n < 10) :
    natDigitsRevAux f₁ n = natDigitsRevAux f₂ n := by
  induction f₁ generalizing f₂ n with
  | zero =>
    have hn : n < 10 := by
      rcases h₁ with h | h
      · omega
      · exact h
    cases f₂ with
    | zero => rfl
    | succ g => simp [natDigitsRevAux, hn]
  | succ f ih =>
    by_cases hn : n < 10
    · cases f₂ with
      | zero => simp [natDigitsRevAux, hn]
      | succ g => simp [natDigitsRevAux, hn]
    · cases f₂ with
      | zero =>
        rcases h₂ with h | h <;> omega
      | succ g =>
        simp only [natDigitsRevAux, if_neg hn]
        have hdiv : n / 10 < n := Nat.div_lt_self (by omega) (by omega)
        congr 1
        apply ih
        · left
          rcases h₁ with h | h <;> omega
        · left
          rcases h₂ with h | h <;> omega

theorem natDigitsRev_eq (n : ℕ) :
    natDigitsRev n =
      if n < 10 then [digChar n] else digChar (n % 10) :: natDigitsRev (n / 10) := by
  unfold natDigitsRev
  by_cases hn : n < 10
  · rw [if_pos hn]
    cases n with
    | zero => rfl
    | succ m => simp [natDigitsRevAux, hn]
  · rw [if_neg hn]
    obtain ⟨m, rfl⟩ : ∃ m, n = m + 1 := ⟨n - 1, by omega⟩
    simp only [natDigitsRevAux, if_neg hn]
    have hdiv : (m + 1) / 10 < m + 1 := Nat.div_lt_self (by omega) (by omega)
    congr 1
    apply natDigitsRevAux_irrel
    · left; omega
    · left; exact le_rfl

/-- C8: in the relative-abundance (TPM) format, each sample identifier is
split at its last underscore — the token after the last underscore is the
treatment, everything before it (underscores preserved) is the entry. -/
theorem tpm_sample_split_last_underscore (l : List Char) (h : '_' ∈ l) :
    entryOf l ++ '_' :: treatmentOf l = l ∧ '_' ∉ treatmentOf l := by
  have hlen := two_le_length_splitOnChar '_' l h
  have hnn := splitOnChar_ne_nil '_' l
  have hinit : (splitOnChar '_' l).dropLast ≠ [] := by
    intro h0
    have h1 := List.length_dropLast (splitOnChar '_' l)
    rw [h0] at h1
    simp at h1
    omega
  have hlast : (splitOnChar '_' l).drop ((splitOnChar '_' l).length - 1)
      = [(splitOnChar '_' l).getLast hnn] := drop_length_sub_one _ hnn
  have htreat : treatmentOf l = (splitOnChar '_' l).getLast hnn := by
    rw [treatmentOf, hlast]
    rfl
  have hsplit : (splitOnChar '_' l).dropLast ++ [(splitOnChar '_' l).getLast hnn]
      = splitOnChar '_' l := List.dropLast_append_getLast hnn
  constructor
  · have hj : joinSep '_' ((splitOnChar '_' l).dropLast ++ [(splitOnChar '_' l).getLast hnn])
        = joinSep '_' (splitOnChar '_' l).dropLast ++ '_' :: (splitOnChar '_' l).getLast hnn :=
      joinSep_append_singleton '_' _ _ hinit
    rw [hsplit] at hj
    calc entryOf l ++ '_' :: treatmentOf l
        = joinSep '_' (splitOnChar '_' l).dropLast ++ '_' :: (splitOnChar '_' l).getLast hnn := by
          rw [entryOf, htreat]
      _ = joinSep '_' (splitOnChar '_' l) := hj.symm
      _ = l := joinSep_splitOnChar '_' l
  · rw [htreat]
    exact not_mem_of_mem_splitOnChar '_' l _ (List.getLast_mem hnn)

/-- Witness for C8 at the concrete sample identifier `A_B_WW`. -/
theorem tpm_sample_split_witness :
    ('_' ∈ "A_B_WW".toList) ∧
      (entryOf "A_B_WW".toList ++ '_' :: treatmentOf "A_B_WW".toList = "A_B_WW".toList ∧
        '_' ∉ treatmentOf "A_B_WW".toList) :=
  ⟨by decide, tpm_sample_split_last_underscore "A_B_WW".toList (by decide)⟩

/-- Replacing a one-character pattern by the empty string removes every
occurrence of that character, wherever it appears. -/
theorem pyReplace_single_filter (c : Char) (l : List Char) :
    pyReplace [c] [] l = l.filter (fun x => x ≠ c) := by
  induction l with
  | nil => rfl
  | cons x xs ih =>
    rw [pyReplace_cons]
    by_cases hx : x = c
    · subst hx
      rw [if_pos ⟨by simp [List.isPrefixOf], by simp⟩]
      simpa using ih
    · rw [if_neg (by simp [List.isPrefixOf]; intro hcx; exact absurd hcx.symm hx)]
      simp [hx, ih]

/-- C10: the plot extracted by `fix_plot_column` is the second
underscore-delimited token of the scan name with every occurrence of
`00000.asd` replaced away and every occurrence of the character `p`
removed — wherever it appears, not only as a trailing suffix or a leading
letter; in particular the interior `p` of `Cotton_p1000000.asdp2_x`
disappears. -/
theorem plot_token_strip_everywhere :
    (∀ name : String, extractPlotName name =
      String.mk ((pyReplace "00000.asd".toList []
        ((splitOnChar '_' name.toList).getD 1 [])).filter (fun x => x ≠ 'p'))) ∧
    extractPlotName "Cotton_p1000000.asdp2_x" = "102" := by
  constructor
  · intro name
    rw [extractPlotName, pyReplace_single_filter]
  · decide

/-- Splitting a list by a Boolean predicate preserves total length. -/
theorem length_filter_add_length_filter_not {α : Type} (p : α → Bool) (l : List α) :
    (l.filter p).length + (l.filter (fun a => ! p a)).length = l.length := by
  induction l with
  | nil => simp
  | cons a l ih =>
    by_cases h : p a <;> simp [List.filter, h, ← ih] <;> omega

/-- A `mapOpt` where every element succeeds returns the successful values. -/
theorem mapOpt_eq_some_map {α β : Type} (f : α → Option β) (g : α → β) (xs : List α)
    (h : ∀ x ∈ xs, f x = some (g x)) : mapOpt f xs = some (xs.map g) := by
  induction xs with
  | nil => rfl
  | cons x xs ih =>
    simp only [mapOpt, h x (List.mem_cons_self x xs),
      ih (fun y hy => h y (List.mem_cons.2 (Or.inr hy))), Option.bind_eq_bind,
      Option.some_bind, List.map_cons]

/-- A `mapOpt` with a failing element fails. -/
theorem mapOpt_eq_none {α β : Type} (f : α → Option β) (xs : List α)
    (x : α) (hx : x ∈ xs) (h : f x = none) : mapOpt f xs = none := by
  induction xs with
  | nil => cases hx
  | cons y ys ih =>
    rcases List.mem_cons.1 hx with rfl | hx'
    · simp [mapOpt, h]
    · cases hy : f y with
      | none => simp [mapOpt, hy]
      | some y0 => simp [mapOpt, hy, ih hx']

/-- On a name with a second underscore-delimited token, the fallible
extraction succeeds with the total extraction's value. -/
theorem extractPlotName?_of_two_le (name : String)
    (h : 2 ≤ (splitOnChar '_' name.toList).length) :
    extractPlotName? name = some (extractPlotName name) := by
  rw [extractPlotName?, extractPlotName]
  cases h2 : (splitOnChar '_' name.toList)[1]? with
  | none =>
    rw [List.getElem?_eq_none_iff] at h2
    omega
  | some tok =>
    have h3 : (splitOnChar '_' name.toList).getD 1 [] = tok := by
      rw [List.getD_eq_getElem?_getD, h2]
      rfl
    rw [h3]
    rfl

/-- On a name with no second underscore-delimited token, the extraction
raises (`split('_')[1]` is an `IndexError`). -/
theorem extractPlotName?_of_lt_two (name : String)
    (h : (splitOnChar '_' name.toList).length < 2) :
    extractPlotName? name = none := by
  rw [extractPlotName?, List.getElem?_eq_none (by omega)]
  rfl

/-- C3 (amended): `fix_plot_column` does not select or discard columns — it
relabels all columns positionally with `'Lambda'` followed by the plot
numbers extracted from the `Cotton`-marked names.  It succeeds exactly when
every `Cotton`-marked name has a second underscore-delimited token (a marked
name without one raises an `IndexError` in the extraction itself) and
exactly one column name lacks the marker (any other count makes the new
header list's length differ from the column count and raises a
length-mismatch error); in every failure mode an error is raised and no
column is discarded. -/
theorem fix_plot_column_relabel (cols : List (String × List Val)) :
    fix_plot_column cols =
      if ((cols.map Prod.fst).filter (fun n => strContains "Cotton" n)).all
          (fun n => 2 ≤ (splitOnChar '_' n.toList).length) then
        if ((cols.map Prod.fst).filter (fun n => ! strContains "Cotton" n)).length = 1 then
          some (("Lambda" ::
              ((cols.map Prod.fst).filter (fun n => strContains "Cotton" n)).map
                extractPlotName).zip
            (cols.map Prod.snd))
        else none
      else none := by
  have hL := length_filter_add_length_filter_not
    (fun n => strContains "Cotton" n) (cols.map Prod.fst)
  rw [List.length_map] at hL
  by_cases hall : ∀ n ∈ (cols.map Prod.fst).filter (fun n => strContains "Cotton" n),
      2 ≤ (splitOnChar '_' n.toList).length
  · rw [if_pos (by rw [List.all_eq_true]; intro n hn; simpa using hall n hn)]
    have hmap : mapOpt extractPlotName?
        ((cols.map Prod.fst).filter (fun n => strContains "Cotton" n))
        = some (((cols.map Prod.fst).filter (fun n => strContains "Cotton" n)).map
            extractPlotName) :=
      mapOpt_eq_some_map _ _ _ (fun n hn => extractPlotName?_of_two_le n (hall n hn))
    rw [fix_plot_column, hmap]
    simp only [Option.bind_eq_bind, Option.some_bind]
    by_cases hc : ((cols.map Prod.fst).filter (fun n => ! strContains "Cotton" n)).length = 1
    · rw [if_pos (by simp only [List.length_cons, List.length_map]; omega), if_pos hc]
    · rw [if_neg (by simp only [List.length_cons, List.length_map]; omega), if_neg hc]
  · rw [if_neg (by
      rw [List.all_eq_true]
      intro hx
      exact hall (fun n hn => by simpa using hx n hn))]
    push_neg at hall
    obtain ⟨n, hn, hlt⟩ := hall
    have hnone := mapOpt_eq_none extractPlotName? _ n hn
      (extractPlotName?_of_lt_two n (by omega))
    rw [fix_plot_column, hnone]
    rfl

/-- Counterexample to C3 as stated, in both failure modes.  First, a table
with the `Lambda` column and one scan column whose name lacks the `Cotton`
marker: the claim predicts the non-matching column is discarded and the
table kept, but the code fails with a column-length mismatch.  Second, a
table whose `Cotton`-marked column has no underscore: the claim predicts it
is kept (renamed), but `split('_')[1]` raises an `IndexError`. -/
theorem fix_plot_column_counterexample :
    fix_plot_column [("Lambda", [Val.num 350]), ("foo", [Val.num 1])] = none ∧
    fix_plot_column [("Lambda", [Val.num 350]), ("Cotton", [Val.num 1])] = none := by
  constructor <;> decide

/-! ## Helper lemmas: decimal rendering and parsing roundtrip -/

theorem digVal_digChar {n : ℕ} (h : n < 10) : digVal (digChar n) = some n := by
  interval_cases n <;> decide

theorem natDigitsRev_all (n : ℕ) : ∀ c ∈ natDigitsRev n, (digVal c).isSome := by
  induction n using Nat.strong_induction_on with
  | _ n ih =>
    rw [natDigitsRev_eq]
    by_cases hn : n < 10
    · simp only [if_pos hn, List.mem_singleton]
      rintro c rfl
      rw [digVal_digChar hn]
      rfl
    · simp only [if_neg hn, List.mem_cons]
      rintro c (rfl | hc)
      · rw [digVal_digChar (Nat.mod_lt n (by omega))]
        rfl
      · exact ih (n / 10) (Nat.div_lt_self (by omega) (by omega)) c hc

theorem natDigitsRev_ne_nil (n : ℕ) : natDigitsRev n ≠ [] := by
  rw [natDigitsRev_eq]
  by_cases hn : n < 10 <;> simp [hn]

theorem digChar_eq_zero_iff {n : ℕ} (h : n < 10) : digChar n = '0' ↔ n = 0 := by
  interval_cases n <;> simp <;> decide

theorem natDigitsRev_getLast?_ne_zero (n : ℕ) (h : n ≠ 0) :
    (natDigitsRev n).getLast? ≠ some '0' := by
  induction n using Nat.strong_induction_on with
  | _ n ih =>
    rw [natDigitsRev_eq]
    by_cases hn : n < 10
    · simp only [if_pos hn, List.getLast?_singleton]
      intro hc
      exact h ((digChar_eq_zero_iff hn).1 (Option.some_injective _ hc))
    · rw [if_neg hn]
      have h1 : n / 10 ≠ 0 := by
        have : 1 ≤ n / 10 := (Nat.one_le_div_iff (by omega)).2 (by omega)
        omega
      have h2 := ih (n / 10) (Nat.div_lt_self (by omega) (by omega)) h1
      cases hl : (natDigitsRev (n / 10)).getLast? with
      | none => exact absurd (List.getLast?_eq_none_iff.1 hl) (natDigitsRev_ne_nil _)
      | some x =>
        rw [List.getLast?_cons, hl]
        rw [hl] at h2
        simpa using h2

theorem natDigitsRev_foldr (n : ℕ) :
    (natDigitsRev n).foldr (fun c a => a * 10 + (digVal c).getD 0) 0 = n := by
  induction n using Nat.strong_induction_on with
  | _ n ih =>
    rw [natDigitsRev_eq]
    by_cases hn : n < 10
    · simp [if_pos hn, digVal_digChar hn]
    · simp only [if_neg hn, List.foldr_cons]
      rw [ih (n / 10) (Nat.div_lt_self (by omega) (by omega)),
        digVal_digChar (Nat.mod_lt n (by omega))]
      simp only [Option.getD_some]
      omega

theorem natValMSB_natRepr (n : ℕ) : natValMSB (natRepr n) = n := by
  rw [natValMSB, natRepr, List.foldl_reverse]
  exact natDigitsRev_foldr n

theorem allDigits_natRepr (n : ℕ) : allDigits (natRepr n) = true := by
  rw [allDigits, List.all_eq_true]
  intro c hc
  exact natDigitsRev_all n c (List.mem_reverse.1 hc)

theorem natRepr_ne_nil (n : ℕ) : natRepr n ≠ [] := by
  rw [natRepr]
  simpa using natDigitsRev_ne_nil n

theorem natRepr_head?_ne_zero (n : ℕ) (h : n ≠ 0) : (natRepr n).head? ≠ some '0' := by
  rw [natRepr, List.head?_reverse]
  exact natDigitsRev_getLast?_ne_zero n h

theorem dot_not_mem_natRepr (n : ℕ) : '.' ∉ natRepr n := by
  intro hm
  have h2 := natDigitsRev_all n '.' (List.mem_reverse.1 hm)
  exact absurd h2 (by decide)

theorem dash_not_mem_natRepr (n : ℕ) : '-' ∉ natRepr n := by
  intro hm
  have h2 := natDigitsRev_all n '-' (List.mem_reverse.1 hm)
  exact absurd h2 (by decide)

theorem splitOnChar_of_not_mem (sep : Char) (l : List Char) (h : sep ∉ l) :
    splitOnChar sep l = [l] := by
  induction l with
  | nil => rfl
  | cons c cs ih =>
    have hc : c ≠ sep := fun hcc => h (hcc ▸ List.mem_cons_self c cs)
    have hcs : sep ∉ cs := fun hm => h (List.mem_cons.2 (Or.inr hm))
    simp only [splitOnChar, ih hcs, if_neg hc]

theorem parseUnsigned_natRepr (n : ℕ) : parseUnsigned (natRepr n) = some (n : ℚ) := by
  have hs : splitOnChar '.' (natRepr n) = [natRepr n] :=
    splitOnChar_of_not_mem '.' (natRepr n) (dot_not_mem_natRepr n)
  simp only [parseUnsigned, hs]
  rw [if_pos ⟨natRepr_ne_nil n, allDigits_natRepr n⟩, natValMSB_natRepr]

theorem parseNumChars_eq_of_head (l : List Char) (h : l.head? ≠ some '-') :
    parseNumChars l = parseUnsigned l := by
  cases l with
  | nil => rfl
  | cons c cs =>
    have hc : c ≠ '-' := by
      intro hcc
      exact h (by rw [hcc]; rfl)
    unfold parseNumChars
    split
    · next rest heq =>
      rw [List.cons.injEq] at heq
      exact absurd heq.1 hc
    · rfl

theorem parseNumChars_intRepr (i : ℤ) : parseNumChars (intRepr i) = some (i : ℚ) := by
  rw [intRepr]
  by_cases hi : i < 0
  · rw [if_pos hi]
    have hstep : parseNumChars ('-' :: natRepr (-i).toNat) =
        (parseUnsigned (natRepr (-i).toNat)).map (fun q => -q) := rfl
    rw [hstep, parseUnsigned_natRepr]
    simp only [Option.map_some']
    congr 1
    have h0 : ((-i).toNat : ℤ) = -i := Int.toNat_of_nonneg (by omega)
    have h1 : (((-i).toNat : ℕ) : ℚ) = ((-i : ℤ) : ℚ) := by
      exact_mod_cast congrArg (fun z : ℤ => (z : ℚ)) h0
    rw [h1]
    push_cast
    ring
  · rw [if_neg hi]
    have hhead : (natRepr i.toNat).head? ≠ some '-' := by
      cases hh : (natRepr i.toNat).head? with
      | none => simp
      | some c =>
        have hc : c ∈ natRepr i.toNat := by
          cases hl : natRepr i.toNat with
          | nil => rw [hl] at hh; simp at hh
          | cons x xs =>
            rw [hl] at hh
            simp only [List.head?_cons, Option.some.injEq] at hh
            rw [← hh]
            exact List.mem_cons_self x xs
        intro hsome
        rw [Option.some.injEq] at hsome
        rw [hsome] at hc
        exact dash_not_mem_natRepr _ hc
    rw [parseNumChars_eq_of_head _ hhead, parseUnsigned_natRepr]
    congr 1
    have h0 : (i.toNat : ℤ) = i := Int.toNat_of_nonneg (by omega)
    exact_mod_cast congrArg (fun z : ℤ => (z : ℚ)) h0

theorem ratFloor_eq_intFloor (q : ℚ) : q.floor = ⌊q⌋ := by
  rw [Rat.floor_def', Rat.floor_def]

theorem truncRat_intCast (i : ℤ) : truncRat (i : ℚ) = i := by
  rw [truncRat]
  by_cases hi : (i : ℚ) < 0
  · rw [if_pos hi, ratFloor_eq_intFloor]
    have hneg : (-(i : ℚ)) = ((-i : ℤ) : ℚ) := by push_cast; ring
    rw [hneg, Int.floor_intCast]
    ring
  · rw [if_neg hi, ratFloor_eq_intFloor, Int.floor_intCast]

/-- C7: for every cell value the normalizer can parse, the canonical plot
string contains no decimal point and no leading zero, and re-normalizing the
output returns it unchanged (idempotence). -/
theorem identifier_normalizer_canonical (v : Val) (q : ℚ)
    (h : toNumericVal v = some q) :
    ∃ s : String, normalizePlot v = some s ∧
      '.' ∉ s.toList ∧
      (s.toList = ['0'] ∨ s.toList.head? ≠ some '0') ∧
      normalizePlot (Val.str s) = some s := by
  refine ⟨String.mk (intRepr (truncRat q)), ?_, ?_, ?_, ?_⟩
  · rw [normalizePlot, h]
    rfl
  · show '.' ∉ intRepr (truncRat q)
    rw [intRepr]
    by_cases ht : truncRat q < 0
    · rw [if_pos ht]
      intro hm
      rcases List.mem_cons.1 hm with h1 | h1
      · exact absurd h1 (by decide)
      · exact dot_not_mem_natRepr _ h1
    · rw [if_neg ht]
      exact dot_not_mem_natRepr _
  · show intRepr (truncRat q) = ['0'] ∨ (intRepr (truncRat q)).head? ≠ some '0'
    rw [intRepr]
    by_cases ht : truncRat q < 0
    · right
      rw [if_pos ht]
      intro hx
      rw [List.head?_cons] at hx
      exact absurd (Option.some_injective _ hx) (by decide)
    · by_cases hz : (truncRat q).toNat = 0
      · left
        rw [if_neg ht, hz]
        decide
      · right
        rw [if_neg ht]
        exact natRepr_head?_ne_zero _ hz
  · show normalizePlot (Val.str (String.mk (intRepr (truncRat q))))
        = some (String.mk (intRepr (truncRat q)))
    rw [normalizePlot]
    have hparse : toNumericVal (Val.str (String.mk (intRepr (truncRat q))))
        = some ((truncRat q : ℤ) : ℚ) := parseNumChars_intRepr (truncRat q)
    rw [hparse]
    simp only [Option.map_some']
    rw [truncRat_intCast]

/-- Witness for C7 at the concrete numeric-like string `101.0`. -/
theorem identifier_normalizer_witness :
    ∃ s : String, normalizePlot (Val.str "101.0") = some s ∧
      '.' ∉ s.toList ∧
      (s.toList = ['0'] ∨ s.toList.head? ≠ some '0') ∧
      normalizePlot (Val.str s) = some s :=
  identifier_normalizer_canonical (Val.str "101.0") _ rfl

/-! ## Transcript Partitioner -/

/-- C4: every transcript export lays out exactly one transcript column
followed by the 2151 wavelength columns `350 … 2500` in ascending order
(2152 columns in total), and every exported row carries exactly this column
layout. -/
theorem transcript_export_columns (t : String) :
    (column_list t).length = 2152 ∧
    (column_list t).head? = some t ∧
    (∀ i : ℕ, i < 2151 → (column_list t)[i + 1]? = some (String.mk (natRepr (350 + i)))) ∧
    (∀ (table : List RowL) (r : RowL), r ∈ generate_transcript_rows table t →
      r.map Prod.fst = column_list t) := by
  refine ⟨?_, rfl, ?_, ?_⟩
  · simp [column_list]
  · intro i hi
    simp only [column_list, List.getElem?_cons_succ, List.getElem?_map]
    rw [List.getElem?_range' _ _ (by omega : i < 2501 - 350)]
    simp
  · intro table r hr
    simp only [generate_transcript_rows, List.mem_map] at hr
    obtain ⟨r0, _, rfl⟩ := hr
    show ((column_list t).map (fun c => (c, getCol r0 c))).map Prod.fst = column_list t
    rw [List.map_map]
    exact List.map_id _

/-- Witness for C4 at the concrete transcript `Gh_001`, first wavelength
position and a one-row table. -/
theorem transcript_export_columns_witness :
    (0 < 2151 ∧ (column_list "Gh_001")[0 + 1]? = some (String.mk (natRepr (350 + 0)))) ∧
      (selectCols (column_list "Gh_001") [("Gh_001", Val.num 1), ("350", Val.num 5), ("2500", Val.num 6)]).map
          Prod.fst
        = column_list "Gh_001" := by
  constructor
  · exact ⟨by norm_num, (transcript_export_columns "Gh_001").2.2.1 0 (by norm_num)⟩
  · apply (transcript_export_columns "Gh_001").2.2.2
      [[("Gh_001", Val.num 1), ("350", Val.num 5), ("2500", Val.num 6)]]
    show _ ∈ generate_transcript_rows _ _
    have hgen : generate_transcript_rows
        [[("Gh_001", Val.num 1), ("350", Val.num 5), ("2500", Val.num 6)]] "Gh_001"
        = [selectCols (column_list "Gh_001")
            [("Gh_001", Val.num 1), ("350", Val.num 5), ("2500", Val.num 6)]] := rfl
    rw [hgen]
    exact List.mem_singleton_self _

/-- C5: the per-transcript export keeps exactly the merged rows whose
transcript value, wavelength-350 value and wavelength-2500 value are all
non-missing — no other column is consulted — and an empty qualifying set
gives an empty (header-only) export rather than an error. -/
theorem transcript_filter_boundaries (table : List RowL) (t : String) :
    generate_transcript_rows table t =
      (table.filter (fun r => decide (getCol r t ≠ Val.na ∧ getCol r "350" ≠ Val.na ∧
          getCol r "2500" ≠ Val.na))).map (selectCols (column_list t)) ∧
    ((∀ r ∈ table, getCol r t = Val.na ∨ getCol r "350" = Val.na ∨ getCol r "2500" = Val.na) →
      generate_transcript_rows table t = []) := by
  have hmain : generate_transcript_rows table t =
      (table.filter (fun r => decide (getCol r t ≠ Val.na ∧ getCol r "350" ≠ Val.na ∧
          getCol r "2500" ≠ Val.na))).map (selectCols (column_list t)) := by
    simp only [generate_transcript_rows, dropna, List.filter_filter]
    congr 1
    apply List.filter_congr
    intro r _
    simp only [List.all_cons, List.all_nil, Bool.and_true, Bool.decide_and]
    cases decide (getCol r t ≠ Val.na) <;> cases decide (getCol r "350" ≠ Val.na) <;>
      cases decide (getCol r "2500" ≠ Val.na) <;> rfl
  refine ⟨hmain, fun h => ?_⟩
  rw [hmain]
  have hnil : table.filter (fun r => decide (getCol r t ≠ Val.na ∧ getCol r "350" ≠ Val.na ∧
      getCol r "2500" ≠ Val.na)) = [] := by
    rw [List.filter_eq_nil_iff]
    intro r hr
    rcases h r hr with h1 | h1 | h1 <;> simp [h1]
  rw [hnil]
  rfl

/-- Witness for C5: a one-row table whose transcript value is missing
produces the empty export. -/
theorem transcript_filter_boundaries_witness :
    generate_transcript_rows [[("Gh_001", Val.na), ("350", Val.num 5)]] "Gh_001" = [] :=
  (transcript_filter_boundaries [[("Gh_001", Val.na), ("350", Val.num 5)]] "Gh_001").2
    (by intro r hr; simp at hr; subst hr; left; rfl)

/-! ## Table Joiner: the `stat` dispatch -/

/-- C9 (implicit): with a non-empty group-by list, any `stat` other than the
exact string `mean` — including `none` and unrecognized strings — silently
selects the median aggregation; no validation error is raised. -/
theorem join_dataframes_default_median (idxName : String) (df1 df2 : Frame Val)
    (b : Bool) (g : List String) (stat : Option String)
    (hg : g ≠ []) (hs : stat ≠ some "mean") :
    join_dataframes idxName df1 df2 b g stat
      = join_dataframes idxName df1 df2 b g (some "median") := by
  simp only [join_dataframes]
  rw [if_neg hg, if_neg hg, if_neg hs,
    if_neg (by simp : ¬((some "median" : Option String) = some "mean"))]

/-- Witness for C9 with `stat = none` on small concrete frames. -/
theorem join_dataframes_default_median_witness :
    join_dataframes "plot" [(Val.str "1", [("entry", Val.str "A")])] [] false ["entry"] none
      = join_dataframes "plot" [(Val.str "1", [("entry", Val.str "A")])] [] false ["entry"]
          (some "median") :=
  join_dataframes_default_median "plot" [(Val.str "1", [("entry", Val.str "A")])] [] false
    ["entry"] none (by simp) (by simp)

/-! ## Helper lemmas: column lookup -/

theorem getCol_cons (a : String) (v : Val) (r : RowL) (c : String) :
    getCol ((a, v) :: r) c = if a = c then v else getCol r c := by
  simp only [getCol, List.find?]
  by_cases h : a = c
  · simp [h]
  · simp [h]

theorem getCol_ne_na_mem (r : RowL) (c : String) (h : getCol r c ≠ Val.na) :
    c ∈ r.map Prod.fst := by
  rw [getCol] at h
  cases hf : r.find? (fun p => p.1 = c) with
  | none => rw [hf] at h; exact absurd rfl h
  | some p =>
    have h1 := List.find?_some hf
    have h2 := List.mem_of_find?_eq_some hf
    simp only [decide_eq_true_eq] at h1
    exact h1 ▸ List.mem_map_of_mem Prod.fst h2

theorem getCol_map_pairs (cols : List String) (f : String → Val) (c : String) :
    getCol (cols.map (fun d => (d, f d))) c = if c ∈ cols then f c else Val.na := by
  induction cols with
  | nil => simp [getCol]
  | cons d ds ih =>
    rw [List.map_cons, getCol_cons]
    by_cases h : d = c
    · subst h
      simp
    · rw [if_neg h, ih]
      by_cases hc : c ∈ ds
      · rw [if_pos hc, if_pos (List.mem_cons.2 (Or.inr hc))]
      · rw [if_neg hc, if_neg (by
          intro hmem
          rcases List.mem_cons.1 hmem with h1 | h1
          · exact h h1.symm
          · exact hc h1)]

/-! ## Table Joiner: mean aggregation -/

/-- C6: in the mean-aggregated join, each output row's value at a column is
the arithmetic mean (sum over count) of the numeric values its group takes
there; a singleton group reproduces its row's own value. -/
theorem join_dataframes_mean_aggregates (idxName : String) (df1 df2 : Frame Val)
    (b : Bool) (g : List String) (p : List Val × RowL) (c : String)
    (hg : g ≠ [])
    (hp : p ∈ join_dataframes idxName df1 df2 b g (some "mean")) :
    (numsAt c (groupRows g (resetIndex idxName (joinDF df1 df2)) p.1) ≠ [] →
      getCol p.2 c =
        Val.num ((numsAt c (groupRows g (resetIndex idxName (joinDF df1 df2)) p.1)).sum /
          ((numsAt c (groupRows g (resetIndex idxName (joinDF df1 df2)) p.1)).length : ℚ))) ∧
    (∀ q : ℚ, numsAt c (groupRows g (resetIndex idxName (joinDF df1 df2)) p.1) = [q] →
      getCol p.2 c = Val.num q) := by
  have hp' : p ∈ groupbyAgg meanQ g (resetIndex idxName (joinDF df1 df2)) := by
    simpa [join_dataframes, if_neg hg] using hp
  rw [groupbyAgg, List.mem_map] at hp'
  obtain ⟨k, hk, rfl⟩ := hp'
  have hcols : ∀ q0 qt, numsAt c (groupRows g (resetIndex idxName (joinDF df1 df2)) k) = q0 :: qt →
      c ∈ colsOf (groupRows g (resetIndex idxName (joinDF df1 df2)) k) := by
    intro q0 qt hq
    have hq0 : q0 ∈ numsAt c (groupRows g (resetIndex idxName (joinDF df1 df2)) k) := by
      rw [hq]
      exact List.mem_cons_self q0 qt
    rw [numsAt, List.mem_filterMap] at hq0
    obtain ⟨r, hr, hmatch⟩ := hq0
    have hrc : getCol r c = Val.num q0 := by
      cases hv : getCol r c <;> rw [hv] at hmatch <;> simp at hmatch
      rw [hmatch]
    have hmem : c ∈ r.map Prod.fst := getCol_ne_na_mem r c (by rw [hrc]; intro hx; cases hx)
    rw [colsOf, List.mem_dedup, List.mem_flatMap]
    exact ⟨r, hr, hmem⟩
  constructor
  · intro hne
    cases hq : numsAt c (groupRows g (resetIndex idxName (joinDF df1 df2)) k) with
    | nil => exact absurd hq hne
    | cons q0 qt =>
      show getCol (aggRow meanQ (groupRows g (resetIndex idxName (joinDF df1 df2)) k)) c = _
      rw [aggRow, getCol_map_pairs, if_pos (hcols q0 qt hq), hq]
      rfl
  · intro q hq
    show getCol (aggRow meanQ (groupRows g (resetIndex idxName (joinDF df1 df2)) k)) c = _
    rw [aggRow, getCol_map_pairs, if_pos (hcols q [] hq), hq]
    show Val.num (meanQ [q]) = Val.num q
    rw [meanQ]
    norm_num

/-- Witness for C6. -/
theorem join_dataframes_mean_witness :
    getCol (aggRow meanQ (groupRows ["entry", "treatment"]
        (resetIndex "plot" (joinDF [(Val.str "1", [("entry", Val.str "A"), ("treatment", Val.str "WW"), ("x", Val.num 2)]),
          (Val.str "2", [("entry", Val.str "A"), ("treatment", Val.str "WW"), ("x", Val.num 4)]),
          (Val.str "3", [("entry", Val.str "B"), ("treatment", Val.str "WW"), ("y", Val.num 7)])] []))
        [Val.str "A", Val.str "WW"])) "x" = Val.num 3 ∧
    getCol (aggRow meanQ (groupRows ["entry", "treatment"]
        (resetIndex "plot" (joinDF [(Val.str "1", [("entry", Val.str "A"), ("treatment", Val.str "WW"), ("x", Val.num 2)]),
          (Val.str "2", [("entry", Val.str "A"), ("treatment", Val.str "WW"), ("x", Val.num 4)]),
          (Val.str "3", [("entry", Val.str "B"), ("treatment", Val.str "WW"), ("y", Val.num 7)])] []))
        [Val.str "B", Val.str "WW"])) "y" = Val.num 7 := by
  have hout : join_dataframes "plot"
      [(Val.str "1", [("entry", Val.str "A"), ("treatment", Val.str "WW"), ("x", Val.num 2)]),
        (Val.str "2", [("entry", Val.str "A"), ("treatment", Val.str "WW"), ("x", Val.num 4)]),
        (Val.str "3", [("entry", Val.str "B"), ("treatment", Val.str "WW"), ("y", Val.num 7)])]
      [] false ["entry", "treatment"] (some "mean")
      = groupbyAgg meanQ ["entry", "treatment"] (resetIndex "plot"
          (joinDF [(Val.str "1", [("entry", Val.str "A"), ("treatment", Val.str "WW"), ("x", Val.num 2)]),
            (Val.str "2", [("entry", Val.str "A"), ("treatment", Val.str "WW"), ("x", Val.num 4)]),
            (Val.str "3", [("entry", Val.str "B"), ("treatment", Val.str "WW"), ("y", Val.num 7)])] [])) := by
    simp [join_dataframes]
  constructor
  · have hmem : ([Val.str "A", Val.str "WW"],
        aggRow meanQ (groupRows ["entry", "treatment"]
          (resetIndex "plot" (joinDF [(Val.str "1", [("entry", Val.str "A"), ("treatment", Val.str "WW"), ("x", Val.num 2)]),
            (Val.str "2", [("entry", Val.str "A"), ("treatment", Val.str "WW"), ("x", Val.num 4)]),
            (Val.str "3", [("entry", Val.str "B"), ("treatment", Val.str "WW"), ("y", Val.num 7)])] []))
          [Val.str "A", Val.str "WW"]))
        ∈ join_dataframes "plot"
            [(Val.str "1", [("entry", Val.str "A"), ("treatment", Val.str "WW"), ("x", Val.num 2)]),
              (Val.str "2", [("entry", Val.str "A"), ("treatment", Val.str "WW"), ("x", Val.num 4)]),
              (Val.str "3", [("entry", Val.str "B"), ("treatment", Val.str "WW"), ("y", Val.num 7)])]
            [] false ["entry", "treatment"] (some "mean") := by
      rw [hout, groupbyAgg, List.mem_map]
      exact ⟨[Val.str "A", Val.str "WW"], by decide, rfl⟩
    have h := (join_dataframes_mean_aggregates "plot" _ [] false ["entry", "treatment"] _ "x"
      (by simp) hmem).1 (by decide)
    have hqs : numsAt "x" (groupRows ["entry", "treatment"]
        (resetIndex "plot" (joinDF [(Val.str "1", [("entry", Val.str "A"), ("treatment", Val.str "WW"), ("x", Val.num 2)]),
          (Val.str "2", [("entry", Val.str "A"), ("treatment", Val.str "WW"), ("x", Val.num 4)]),
          (Val.str "3", [("entry", Val.str "B"), ("treatment", Val.str "WW"), ("y", Val.num 7)])] []))
        [Val.str "A", Val.str "WW"]) = [2, 4] := by decide
    rw [hqs] at h
    refine h.trans ?_
    have hv : (([2, 4] : List ℚ).sum / (([2, 4] : List ℚ).length : ℚ)) = 3 := by
      norm_num
    exact congrArg Val.num hv
  · have hmem : ([Val.str "B", Val.str "WW"],
        aggRow meanQ (groupRows ["entry", "treatment"]
          (resetIndex "plot" (joinDF [(Val.str "1", [("entry", Val.str "A"), ("treatment", Val.str "WW"), ("x", Val.num 2)]),
            (Val.str "2", [("entry", Val.str "A"), ("treatment", Val.str "WW"), ("x", Val.num 4)]),
            (Val.str "3", [("entry", Val.str "B"), ("treatment", Val.str "WW"), ("y", Val.num 7)])] []))
          [Val.str "B", Val.str "WW"]))
        ∈ join_dataframes "plot"
            [(Val.str "1", [("entry", Val.str "A"), ("treatment", Val.str "WW"), ("x", Val.num 2)]),
              (Val.str "2", [("entry", Val.str "A"), ("treatment", Val.str "WW"), ("x", Val.num 4)]),
              (Val.str "3", [("entry", Val.str "B"), ("treatment", Val.str "WW"), ("y", Val.num 7)])]
            [] false ["entry", "treatment"] (some "mean") := by
      rw [hout, groupbyAgg, List.mem_map]
      exact ⟨[Val.str "B", Val.str "WW"], by decide, rfl⟩
    exact (join_dataframes_mean_aggregates "plot" _ [] false ["entry", "treatment"] _ "y"
      (by simp) hmem).2 7 (by decide)

/-! ## Table Joiner: join semantics -/

/-- C1 (amended): the index-aligned join is pandas' default left join — an
index value appears in the joined result exactly when it appears in the left
table.  Rows present only in the right table are excluded, but rows present
only in the left table are retained (with the right table's columns missing)
rather than dropped. -/
theorem join_keeps_left_rows {ι : Type} [DecidableEq ι] (df1 df2 : Frame ι) (i : ι) :
    i ∈ (joinDF df1 df2).map Prod.fst ↔ i ∈ df1.map Prod.fst := by
  constructor
  · intro h
    rw [List.mem_map] at h
    obtain ⟨p, hp, rfl⟩ := h
    rw [joinDF, List.mem_flatMap] at hp
    obtain ⟨a, ha, hpa⟩ := hp
    have hfst : p.1 = a.1 := by
      cases hfil : (df2.filter (fun q => q.1 = a.1)) with
      | nil =>
        rw [hfil] at hpa
        simp only [List.mem_singleton] at hpa
        rw [hpa]
      | cons m ms =>
        rw [hfil] at hpa
        rw [List.mem_map] at hpa
        obtain ⟨q, _, rfl⟩ := hpa
        rfl
    rw [hfst]
    exact List.mem_map_of_mem _ ha
  · intro h
    rw [List.mem_map] at h
    obtain ⟨a, ha, rfl⟩ := h
    rw [List.mem_map]
    cases hfil : (df2.filter (fun q => q.1 = a.1)) with
    | nil =>
      refine ⟨(a.1, a.2), ?_, rfl⟩
      rw [joinDF, List.mem_flatMap]
      refine ⟨a, ha, ?_⟩
      rw [hfil]
      simp
    | cons m ms =>
      refine ⟨(a.1, a.2 ++ m.2), ?_, rfl⟩
      rw [joinDF, List.mem_flatMap]
      refine ⟨a, ha, ?_⟩
      rw [hfil]
      exact List.mem_map_of_mem _ (List.mem_cons_self m ms)

/-- Counterexample to C1 as stated: a fieldbook with the single row
`(plot 1, entry A, treatment WW)` joined against an expression table with no
samples.  The claim predicts the fieldbook row is absent from the result
(inner join); the code keeps it, with only its fieldbook attributes. -/
theorem join_inner_counterexample :
    get_rnaseq_data true [("Gene", [])]
      [[("plot", Val.num 1), ("entry", Val.str "A"), ("treatment", Val.str "WW")]]
      = some [(Val.str "1", [("entry", Val.str "A"), ("treatment", Val.str "WW")])] := by
  decide

/-! ## Helper lemmas for the merge-pipeline key provenance -/

theorem mem_mapOpt {α β : Type} (f : α → Option β) (xs : List α) (ys : List β)
    (h : mapOpt f xs = some ys) (y : β) (hy : y ∈ ys) :
    ∃ x ∈ xs, f x = some y := by
  induction xs generalizing ys with
  | nil =>
    simp only [mapOpt, Option.some.injEq] at h
    rw [← h] at hy
    simp at hy
  | cons x xs ih =>
    simp only [mapOpt] at h
    cases hfx : f x with
    | none => rw [hfx] at h; simp at h
    | some y0 =>
      rw [hfx] at h
      cases hrest : mapOpt f xs with
      | none => rw [hrest] at h; simp at h
      | some ys0 =>
        rw [hrest] at h
        have h2 : y0 :: ys0 = ys := by simpa using h
        rw [← h2] at hy
        rcases List.mem_cons.1 hy with rfl | hy0
        · exact ⟨x, List.mem_cons_self x xs, hfx⟩
        · obtain ⟨x1, hx1, hfx1⟩ := ih ys0 hrest hy0
          exact ⟨x1, List.mem_cons.2 (Or.inr hx1), hfx1⟩

theorem getCol_eq_na_of_not_mem (r : RowL) (c : String) (h : c ∉ r.map Prod.fst) :
    getCol r c = Val.na := by
  rw [getCol]
  cases hf : r.find? (fun p => p.1 = c) with
  | none => rfl
  | some p =>
    have h1 := List.find?_some hf
    have h2 := List.mem_of_find?_eq_some hf
    simp only [decide_eq_true_eq] at h1
    exact absurd (h1 ▸ List.mem_map_of_mem Prod.fst h2) h

theorem getCol_append_left (l t : RowL) (c : String) (h : c ∈ l.map Prod.fst) :
    getCol (l ++ t) c = getCol l c := by
  induction l with
  | nil => simp at h
  | cons p l ih =>
    rcases p with ⟨a, v⟩
    rw [List.cons_append, getCol_cons, getCol_cons]
    by_cases ha : a = c
    · rw [if_pos ha, if_pos ha]
    · rw [if_neg ha, if_neg ha]
      apply ih
      rcases List.mem_cons.1 h with h1 | h1
      · exact absurd h1.symm ha
      · exact h1

theorem getCol_append_right (l t : RowL) (c : String) (h : c ∉ l.map Prod.fst) :
    getCol (l ++ t) c = getCol t c := by
  induction l with
  | nil => rfl
  | cons p l ih =>
    rcases p with ⟨a, v⟩
    rw [List.cons_append, getCol_cons]
    have ha : a ≠ c := by
      intro hac
      exact h (List.mem_cons.2 (Or.inl hac.symm))
    rw [if_neg ha]
    exact ih (fun hm => h (List.mem_cons.2 (Or.inr hm)))

theorem getCol_map_replace (c c' : String) (v : Val) (r : RowL) (h : c ≠ c') :
    getCol (r.map (fun p => if p.1 = c' then (c', v) else p)) c = getCol r c := by
  induction r with
  | nil => rfl
  | cons p r ih =>
    rcases p with ⟨a, w⟩
    rw [List.map_cons]
    by_cases hp : (a, w).1 = c'
    · have h1 : ¬(c' = c) := fun hcc => h hcc.symm
      have h2 : ¬(a = c) := fun hac => h (hac ▸ hp)
      rw [if_pos hp, getCol_cons, getCol_cons, if_neg h1, if_neg h2]
      exact ih
    · rw [if_neg hp, getCol_cons, getCol_cons]
      by_cases ha : a = c
      · rw [if_pos ha, if_pos ha]
      · rw [if_neg ha, if_neg ha]
        exact ih

theorem getCol_setCol_ne (c c' : String) (v : Val) (r : RowL) (h : c ≠ c') :
    getCol (setCol c' v r) c = getCol r c := by
  rw [setCol]
  by_cases hc : (r.map Prod.fst).contains c'
  · rw [if_pos hc]
    exact getCol_map_replace c c' v r h
  · rw [if_neg hc]
    by_cases hm : c ∈ r.map Prod.fst
    · exact getCol_append_left r _ c hm
    · rw [getCol_append_right r _ c hm, getCol_eq_na_of_not_mem r c hm]
      rw [getCol_cons, if_neg (fun hcc : c' = c => h hcc.symm)]
      rfl

theorem mem_keys_setCol (c c' : String) (v : Val) (r : RowL)
    (hne : c ≠ c') (h : c ∈ r.map Prod.fst) :
    c ∈ (setCol c' v r).map Prod.fst := by
  rw [setCol]
  by_cases hc : (r.map Prod.fst).contains c'
  · rw [if_pos hc]
    rw [List.mem_map] at h
    obtain ⟨p, hp, rfl⟩ := h
    rw [List.mem_map]
    refine ⟨(if p.1 = c' then (c', v) else p), List.mem_map_of_mem _ hp, ?_⟩
    rw [if_neg hne]
  · rw [if_neg hc, List.map_append]
    exact List.mem_append_left _ h

theorem getCol_eraseCol_ne (c c' : String) (r : RowL) (h : c ≠ c') :
    getCol (eraseCol c' r) c = getCol r c := by
  induction r with
  | nil => rfl
  | cons p r ih =>
    rcases p with ⟨a, v⟩
    rw [eraseCol]
    by_cases hp : a = c'
    · rw [List.filter_cons_of_neg (by simp [hp]), getCol_cons,
        if_neg (fun hac : a = c => h (hac ▸ hp ▸ rfl))]
      exact ih
    · rw [List.filter_cons_of_pos (by simp [hp]), getCol_cons, getCol_cons]
      by_cases ha : a = c
      · rw [if_pos ha, if_pos ha]
      · rw [if_neg ha, if_neg ha]
        exact ih

theorem mem_keys_eraseCol (c c' : String) (r : RowL)
    (hne : c ≠ c') (h : c ∈ r.map Prod.fst) :
    c ∈ (eraseCol c' r).map Prod.fst := by
  rw [List.mem_map] at h
  obtain ⟨p, hp, rfl⟩ := h
  rw [List.mem_map]
  refine ⟨p, ?_, rfl⟩
  rw [eraseCol, List.mem_filter]
  exact ⟨hp, by simpa using hne⟩

theorem mem_joinDF {ι : Type} [DecidableEq ι] (df1 df2 : Frame ι) (p : ι × RowL)
    (hp : p ∈ joinDF df1 df2) :
    ∃ a ∈ df1, ∃ tail : RowL, p.1 = a.1 ∧ p.2 = a.2 ++ tail := by
  rw [joinDF, List.mem_flatMap] at hp
  obtain ⟨a, ha, hpa⟩ := hp
  cases hfil : (df2.filter (fun q => q.1 = a.1)) with
  | nil =>
    rw [hfil] at hpa
    simp only [List.mem_singleton] at hpa
    exact ⟨a, ha, [], by rw [hpa], by rw [hpa]; simp⟩
  | cons m ms =>
    rw [hfil] at hpa
    rw [List.mem_map] at hpa
    obtain ⟨q, _, rfl⟩ := hpa
    exact ⟨a, ha, q.2, rfl, rfl⟩

theorem fst_groupbyAgg (agg : List ℚ → ℚ) (g : List String) (rows : List RowL) :
    (groupbyAgg agg g rows).map Prod.fst = groupKeys g rows := by
  rw [groupbyAgg, List.map_map]
  exact List.map_id _

theorem mem_groupKeys (g : List String) (rows : List RowL) (k : List Val)
    (hk : k ∈ groupKeys g rows) : ∃ row ∈ rows, k = keyOf g row := by
  rw [groupKeys, List.mem_dedup, List.mem_filter, List.mem_map] at hk
  obtain ⟨⟨row, hrow, rfl⟩, _⟩ := hk
  exact ⟨row, hrow, rfl⟩

/-- Every row of the loaded fieldbook frame comes from a raw fieldbook row
with a non-missing plot: the normalization only rewrites the `plot` column,
leaving every other column's value and presence unchanged. -/
theorem fieldbook_row_provenance (fbRaw : List RowL) (index : String) (fb : Frame Val)
    (h : get_fieldbook_data fbRaw index = some fb) (p : Val × RowL) (hp : p ∈ fb) :
    ∃ r ∈ fbRaw, getCol r "plot" ≠ Val.na ∧ ∃ rn : RowL,
      p = (getCol rn index, eraseCol index rn) ∧
      (∀ c : String, c ≠ "plot" → getCol rn c = getCol r c) ∧
      (∀ c : String, c ≠ "plot" → c ∈ r.map Prod.fst → c ∈ rn.map Prod.fst) := by
  rw [get_fieldbook_data] at h
  cases hm : mapOpt (fun r =>
      (normalizePlot (getCol r "plot")).map (fun s => setCol "plot" (Val.str s) r))
      (fbRaw.filter (fun r => getCol r "plot" ≠ Val.na)) with
  | none => rw [hm] at h; simp at h
  | some fb2 =>
    rw [hm] at h
    have hfb : fb = fb2.map (fun r => (getCol r index, eraseCol index r)) := by
      simpa using h.symm
    rw [hfb, List.mem_map] at hp
    obtain ⟨rn, hrn, rfl⟩ := hp
    obtain ⟨r, hrfil, hfr⟩ := mem_mapOpt _ _ _ hm rn hrn
    rw [List.mem_filter] at hrfil
    obtain ⟨hrmem, hrne⟩ := hrfil
    refine ⟨r, hrmem, by simpa using hrne, rn, rfl, ?_, ?_⟩
    · intro c hc
      cases hnp : normalizePlot (getCol r "plot") with
      | none => rw [hnp] at hfr; simp at hfr
      | some s =>
        rw [hnp] at hfr
        simp only [Option.map_some', Option.some.injEq] at hfr
        rw [← hfr]
        exact getCol_setCol_ne c "plot" (Val.str s) r hc
    · intro c hc hcm
      cases hnp : normalizePlot (getCol r "plot") with
      | none => rw [hnp] at hfr; simp at hfr
      | some s =>
        rw [hnp] at hfr
        simp only [Option.map_some', Option.some.injEq] at hfr
        rw [← hfr]
        exact mem_keys_setCol c "plot" (Val.str s) r hc hcm

/-- Every row of the expression+fieldbook view (either expression format)
carries `entry` and `treatment` columns whose values come from a raw
fieldbook row with non-missing plot — the left join never takes these keys
from the expression side. -/
theorem rna_fb_row_provenance (isTPM : Bool) (rnaCols : List (String × List Val))
    (fbRaw : List RowL) (out1 : Frame Val)
    (hfb : ∀ r ∈ fbRaw, "treatment" ∈ r.map Prod.fst)
    (h : get_rnaseq_data isTPM rnaCols fbRaw = some out1)
    (a : Val × RowL) (ha : a ∈ out1) :
    ∃ r ∈ fbRaw, getCol r "plot" ≠ Val.na ∧
      "entry" ∈ a.2.map Prod.fst ∧ "treatment" ∈ a.2.map Prod.fst ∧
      getCol a.2 "entry" = getCol r "entry" ∧
      getCol a.2 "treatment" = getCol r "treatment" := by
  rw [get_rnaseq_data] at h
  cases hfbd : get_fieldbook_data fbRaw "entry" with
  | none => rw [hfbd] at h; simp at h
  | some fb =>
    rw [hfbd] at h
    cases isTPM with
    | true =>
      have hout1 : out1 = List.map
          (fun p => (getCol (("entry", p.1.1) :: ("treatment", p.1.2) :: p.2) "plot",
            eraseCol "plot" (("entry", p.1.1) :: ("treatment", p.1.2) :: p.2)))
          (joinDF
            (fb.map (fun p => ((getCol (("entry", p.1) :: p.2) "entry",
                getCol (("entry", p.1) :: p.2) "treatment"),
              eraseCol "treatment" (eraseCol "entry" (("entry", p.1) :: p.2)))))
            ((transposeOn "Gene" (renameGenes rnaCols)).map
              (fun p => ((Val.str (entryOfS p.1), Val.str (treatmentOfS p.1)), p.2)))) := by
        simpa using h.symm
      rw [hout1] at ha
      rw [List.mem_map] at ha
      obtain ⟨pj, hpj, rfl⟩ := ha
      obtain ⟨afbK, hafbK, tail, h1, h2⟩ := mem_joinDF _ _ _ hpj
      rw [List.mem_map] at hafbK
      obtain ⟨fbp, hfbp, rfl⟩ := hafbK
      obtain ⟨r, hrmem, hrne, rn, hpeq, hvals, hkeys⟩ :=
        fieldbook_row_provenance fbRaw "entry" fb hfbd fbp hfbp
      refine ⟨r, hrmem, hrne, ?_, ?_, ?_, ?_⟩
      · apply mem_keys_eraseCol "entry" "plot" _ (by decide)
        show "entry" ∈ (("entry", pj.1.1) :: ("treatment", pj.1.2) :: pj.2).map Prod.fst
        exact List.mem_cons_self _ _
      · apply mem_keys_eraseCol "treatment" "plot" _ (by decide)
        show "treatment" ∈ (("entry", pj.1.1) :: ("treatment", pj.1.2) :: pj.2).map Prod.fst
        exact List.mem_cons.2 (Or.inr (List.mem_cons_self _ _))
      · show getCol (eraseCol "plot"
            (("entry", pj.1.1) :: ("treatment", pj.1.2) :: pj.2)) "entry" = _
        rw [getCol_eraseCol_ne _ _ _ (by decide), getCol_cons, if_pos rfl]
        rw [h1]
        show getCol (("entry", fbp.1) :: fbp.2) "entry" = _
        rw [getCol_cons, if_pos rfl]
        have : fbp.1 = getCol rn "entry" := by rw [hpeq]
        rw [this]
        exact hvals "entry" (by decide)
      · show getCol (eraseCol "plot"
            (("entry", pj.1.1) :: ("treatment", pj.1.2) :: pj.2)) "treatment" = _
        rw [getCol_eraseCol_ne _ _ _ (by decide), getCol_cons, if_neg (by decide),
          getCol_cons, if_pos rfl]
        rw [h1]
        show getCol (("entry", fbp.1) :: fbp.2) "treatment" = _
        rw [getCol_cons, if_neg (by decide)]
        have : fbp.2 = eraseCol "entry" rn := by rw [hpeq]
        rw [this, getCol_eraseCol_ne _ _ _ (by decide)]
        exact hvals "treatment" (by decide)
    | false =>
      have hout1 : out1 = List.map (fun r => (getCol r "plot", eraseCol "plot" r))
          ((join_dataframes "entry" fb ((transposeOn "Gene" (renameGenes rnaCols)).map
            (fun p => (Val.str p.1, p.2))) true [] none).map Prod.snd) := by
        simpa using h.symm
      rw [hout1] at ha
      rw [List.mem_map] at ha
      obtain ⟨row4, hrow4, rfl⟩ := ha
      have hrow4' : row4 ∈ resetIndex "entry"
          (joinDF fb ((transposeOn "Gene" (renameGenes rnaCols)).map
            (fun p => (Val.str p.1, p.2)))) := by
        simpa [join_dataframes, resetIndex, List.map_map] using hrow4
      rw [resetIndex, List.mem_map] at hrow4'
      obtain ⟨pj, hpj, rfl⟩ := hrow4'
      obtain ⟨afb, hafb, tail, h1, h2⟩ := mem_joinDF _ _ _ hpj
      obtain ⟨r, hrmem, hrne, rn, hpeq, hvals, hkeys⟩ :=
        fieldbook_row_provenance fbRaw "entry" fb hfbd afb hafb
      have htr_rn : "treatment" ∈ rn.map Prod.fst :=
        hkeys "treatment" (by decide) (hfb r hrmem)
      have htr_afb2 : "treatment" ∈ afb.2.map Prod.fst := by
        have : afb.2 = eraseCol "entry" rn := by rw [hpeq]
        rw [this]
        exact mem_keys_eraseCol "treatment" "entry" rn (by decide) htr_rn
      refine ⟨r, hrmem, hrne, ?_, ?_, ?_, ?_⟩
      · apply mem_keys_eraseCol "entry" "plot" _ (by decide)
        show "entry" ∈ (("entry", pj.1) :: pj.2).map Prod.fst
        exact List.mem_cons_self _ _
      · apply mem_keys_eraseCol "treatment" "plot" _ (by decide)
        show "treatment" ∈ (("entry", pj.1) :: pj.2).map Prod.fst
        rw [List.map_cons, List.mem_cons]
        right
        rw [h2, List.map_append]
        exact List.mem_append_left _ htr_afb2
      · show getCol (eraseCol "plot" (("entry", pj.1) :: pj.2)) "entry" = _
        rw [getCol_eraseCol_ne _ _ _ (by decide), getCol_cons, if_pos rfl, h1]
        have : afb.1 = getCol rn "entry" := by rw [hpeq]
        rw [this]
        exact hvals "entry" (by decide)
      · show getCol (eraseCol "plot" (("entry", pj.1) :: pj.2)) "treatment" = _
        rw [getCol_eraseCol_ne _ _ _ (by decide), getCol_cons, if_neg (by decide), h2,
          getCol_append_left _ _ _ htr_afb2]
        have : afb.2 = eraseCol "entry" rn := by rw [hpeq]
        rw [this, getCol_eraseCol_ne _ _ _ (by decide)]
        exact hvals "treatment" (by decide)

/-- C2 (amended): every (entry, treatment) key of the final aggregated
merged table is the key of some raw fieldbook row with a non-missing plot
whose treatment survives the treatment filter — the key set is bounded by
the fieldbook alone (left joins), not by the intersection with the
expression and spectral key sets. -/
theorem merged_keys_from_fieldbook (isTPM : Bool)
    (rnaCols spectraCols : List (String × List Val)) (fbRaw : List RowL)
    (treatments : List String) (out : List (List Val × RowL))
    (hfb : ∀ r ∈ fbRaw, "treatment" ∈ r.map Prod.fst)
    (hout : rnaseq_spectra isTPM rnaCols spectraCols fbRaw treatments = some out)
    (k : List Val) (hk : k ∈ out.map Prod.fst) :
    ∃ r ∈ fbRaw, getCol r "plot" ≠ Val.na ∧
      k = [getCol r "entry", getCol r "treatment"] ∧
      getCol r "treatment" ∈ treatments.map Val.str := by
  rw [rnaseq_spectra] at hout
  cases hrna : get_rnaseq_data isTPM rnaCols fbRaw with
  | none => rw [hrna] at hout; simp at hout
  | some rna_fb =>
    rw [hrna] at hout
    cases hspec : get_spectral_data spectraCols fbRaw with
    | none => rw [hspec] at hout; simp at hout
    | some trip =>
      obtain ⟨spectra_df, spectra_fb, fbv⟩ := trip
      rw [hspec] at hout
      have hout2 : out = join_dataframes "plot" (filterTreatment treatments rna_fb)
          spectra_df false ["entry", "treatment"] (some "mean") := by
        simpa using hout.symm
      rw [hout2] at hk
      have hjoin : join_dataframes "plot" (filterTreatment treatments rna_fb)
          spectra_df false ["entry", "treatment"] (some "mean")
          = groupbyAgg meanQ ["entry", "treatment"]
              (resetIndex "plot" (joinDF (filterTreatment treatments rna_fb) spectra_df)) := by
        simp [join_dataframes]
      rw [hjoin, fst_groupbyAgg] at hk
      obtain ⟨row, hrow, hkey⟩ := mem_groupKeys _ _ _ hk
      rw [resetIndex, List.mem_map] at hrow
      obtain ⟨pj, hpj, rfl⟩ := hrow
      obtain ⟨a, ha, tail, h1, h2⟩ := mem_joinDF _ _ _ hpj
      rw [filterTreatment, List.mem_filter] at ha
      obtain ⟨ha1, ha2⟩ := ha
      obtain ⟨r, hrmem, hrne, hentrymem, htrmem, hentryval, htrval⟩ :=
        rna_fb_row_provenance isTPM rnaCols fbRaw rna_fb hfb hrna a ha1
      have hrowentry : getCol (("plot", pj.1) :: pj.2) "entry" = getCol r "entry" := by
        rw [getCol_cons, if_neg (by decide), h2, getCol_append_left _ _ _ hentrymem,
          hentryval]
      have hrowtreat : getCol (("plot", pj.1) :: pj.2) "treatment" = getCol r "treatment" := by
        rw [getCol_cons, if_neg (by decide), h2, getCol_append_left _ _ _ htrmem, htrval]
      refine ⟨r, hrmem, hrne, ?_, ?_⟩
      · rw [hkey]
        show [getCol (("plot", pj.1) :: pj.2) "entry",
            getCol (("plot", pj.1) :: pj.2) "treatment"] = _
        rw [hrowentry, hrowtreat]
      · rw [htrval] at ha2
        simpa using ha2

/-- Counterexample to C2 as stated: a fieldbook with one row
`(plot 1, entry A, treatment WW)`, an expression CSV with no sample columns
and a spectral CSV with only the `Lambda` column.  The (entry, treatment)
key sets of the expression and spectral sources are empty, so the claimed
subset-of-intersection forces an empty aggregated table — yet the key
`(A, WW)` appears in it. -/
theorem merged_keys_counterexample :
    (rnaseq_spectra true [("Gene", [])] [("Lambda", [])]
        [[("plot", Val.num 1), ("entry", Val.str "A"), ("treatment", Val.str "WW")]]
        ["WW", "WL"]).map (fun out => out.map Prod.fst)
      = some [[Val.str "A", Val.str "WW"]] := by
  decide

/-- Witness for the amended C2 on the concrete one-row pipeline run. -/
theorem merged_keys_witness :
    ∃ r ∈ [[("plot", Val.num 1), ("entry", Val.str "A"), ("treatment", Val.str "WW")]],
      getCol r "plot" ≠ Val.na ∧
      [Val.str "A", Val.str "WW"] = [getCol r "entry", getCol r "treatment"] ∧
      getCol r "treatment" ∈ (["WW", "WL"] : List String).map Val.str :=
  merged_keys_from_fieldbook true [("Gene", [])] [("Lambda", [])]
    [[("plot", Val.num 1), ("entry", Val.str "A"), ("treatment", Val.str "WW")]]
    ["WW", "WL"]
    [([Val.str "A", Val.str "WW"], [("plot", Val.na), ("entry", Val.na), ("treatment", Val.na)])]
    (by decide) (by decide) [Val.str "A", Val.str "WW"] (by decide)
